import Mathlib

/-!
Shallow embedding of `sethvargo/go-redisstore`: a Redis-backed token-bucket
rate limiter.  The atomic core is the Lua script `luaTemplate` (refill +
decrement executed server-side); around it sit the Go-level operations
`Take`, `Get`, `Set`, `Burst` and `Close`.

Lua numbers are IEEE doubles.  We idealise them as exact rationals extended
with the IEEE special values `+inf`, `-inf` and `nan`, so that the script's
division by zero (`interval / tokens` when `tokens == 0`) and the subsequent
clamp behave exactly as in the source while field arithmetic stays exact.
Redis hash fields hold numeric strings; since every value written by this
code round-trips through `tonumber` unchanged, the stored fields are
modelled directly as optional `LuaNum` values (absent field = `none`).
-/

set_option allowUnsafeReducibility true
attribute [local semireducible] Rat.add Rat.mul Rat.sub Rat.div Rat.inv

/-- A Lua number: an exact rational, or one of the IEEE special values. -/
inductive LuaNum where
  | fin : ℚ → LuaNum
  | pinf : LuaNum
  | ninf : LuaNum
  | nan : LuaNum
deriving DecidableEq

namespace LuaNum

/-- IEEE-style addition on `LuaNum`. -/
def add : LuaNum → LuaNum → LuaNum
  | fin a, fin b => fin (a + b)
  | fin _, pinf => pinf
  | fin _, ninf => ninf
  | pinf, fin _ => pinf
  | pinf, pinf => pinf
  | pinf, ninf => nan
  | ninf, fin _ => ninf
  | ninf, pinf => nan
  | ninf, ninf => ninf
  | nan, _ => nan
  | _, nan => nan

/-- IEEE-style subtraction on `LuaNum`. -/
def sub : LuaNum → LuaNum → LuaNum
  | fin a, fin b => fin (a - b)
  | fin _, pinf => ninf
  | fin _, ninf => pinf
  | pinf, fin _ => pinf
  | pinf, pinf => nan
  | pinf, ninf => pinf
  | ninf, fin _ => ninf
  | ninf, pinf => ninf
  | ninf, ninf => nan
  | nan, _ => nan
  | _, nan => nan

/-- IEEE-style multiplication on `LuaNum`; `0 × ±inf = nan`. -/
def mul : LuaNum → LuaNum → LuaNum
  | fin a, fin b => fin (a * b)
  | fin a, pinf => if 0 < a then pinf else if a < 0 then ninf else nan
  | fin a, ninf => if 0 < a then ninf else if a < 0 then pinf else nan
  | pinf, fin b => if 0 < b then pinf else if b < 0 then ninf else nan
  | ninf, fin b => if 0 < b then ninf else if b < 0 then pinf else nan
  | pinf, pinf => pinf
  | pinf, ninf => ninf
  | ninf, pinf => ninf
  | ninf, ninf => pinf
  | nan, _ => nan
  | _, nan => nan

/-- IEEE-style division on `LuaNum`: a nonzero finite number divided by zero
yields a signed infinity, `0 / 0 = nan` (Lua inherits C double division). -/
def div : LuaNum → LuaNum → LuaNum
  | fin a, fin b =>
      if b = 0 then (if 0 < a then pinf else if a < 0 then ninf else nan)
      else fin (a / b)
  | fin _, pinf => fin 0
  | fin _, ninf => fin 0
  | pinf, fin b => if 0 ≤ b then pinf else ninf
  | ninf, fin b => if 0 ≤ b then ninf else pinf
  | pinf, pinf => nan
  | pinf, ninf => nan
  | ninf, pinf => nan
  | ninf, ninf => nan
  | nan, _ => nan
  | _, nan => nan

/-- `math.floor`: identity on the special values (C `floor`). -/
def floor : LuaNum → LuaNum
  | fin a => fin ((Int.floor a : ℤ) : ℚ)
  | pinf => pinf
  | ninf => ninf
  | nan => nan

/-- IEEE-style strict comparison `a < b`; any comparison with `nan` is false. -/
def blt : LuaNum → LuaNum → Bool
  | fin a, fin b => decide (a < b)
  | fin _, pinf => true
  | fin _, ninf => false
  | fin _, nan => false
  | pinf, _ => false
  | ninf, fin _ => true
  | ninf, pinf => true
  | ninf, ninf => false
  | ninf, nan => false
  | nan, _ => false

/-- IEEE-style comparison `a ≤ b`; any comparison with `nan` is false. -/
def ble : LuaNum → LuaNum → Bool
  | fin a, fin b => decide (a ≤ b)
  | fin _, pinf => true
  | fin _, ninf => false
  | fin _, nan => false
  | pinf, pinf => true
  | pinf, _ => false
  | ninf, nan => false
  | ninf, _ => true
  | nan, _ => false

/-- Lua's `a > b` is evaluated as `b < a`. -/
def bgt (a b : LuaNum) : Bool := blt b a

end LuaNum

/-- The binary minimum in the sense of the specification's
`min(capacity, (currentTick − tick) × fillRate)`; stated over `LuaNum` so
that an infinite second argument resolves to the first. -/
def specMin (a b : LuaNum) : LuaNum := if a.ble b then a else b

/-- Lua `availabletokens(last, curr, max, fillrate)` from `luaTemplate`:
tokens refilled for the elapsed ticks, clamped above by `max`. -/
def availabletokens (last curr max fillrate : LuaNum) : LuaNum :=
  let delta := curr.sub last
  let available := delta.mul fillrate
  if available.bgt max then max else available

/-- Lua `tick(start, curr, interval)` from `luaTemplate`: the number of whole
intervals between `start` and `curr`, clamped below at zero. -/
def tickFn (start curr interval : LuaNum) : LuaNum :=
  let val := LuaNum.floor ((curr.sub start).div interval)
  if val.bgt (.fin 0) then val else .fin 0

/-- Lua `ttl(interval)` from `luaTemplate`: three times the interval
converted from nanoseconds to whole seconds. -/
def ttlFn (interval : LuaNum) : LuaNum :=
  (LuaNum.fin 3).mul (LuaNum.floor (interval.div (.fin 1000000000)))

/-- The per-key Redis hash holding the bucket fields of `luaTemplate`
(`s`, `t`, `i`, `k`, `m`), each absent until first written, plus the key's
last applied expiry in seconds (the argument of the last `EXPIRE` call). -/
structure Bucket where
  start : Option LuaNum
  tick : Option LuaNum
  interval : Option LuaNum
  tokens : Option LuaNum
  maxTokens : Option LuaNum
  expiry : Option LuaNum
deriving DecidableEq

/-- A key on which no operation has ever been performed: no hash fields. -/
def emptyBucket : Bucket := ⟨none, none, none, none, none, none⟩

/-- The four values returned by `luaTemplate`:
`{maxtokens, tokens, nexttime, allowed}`. -/
structure TakeResult where
  limit : LuaNum
  remaining : LuaNum
  next : LuaNum
  allowed : Bool
deriving DecidableEq

/-- The executable block of `luaTemplate`, run atomically by Redis on each
`Take`: lazily initialise `start`/`tick`, resolve fields against the caller
defaults, refill when an interval boundary was crossed, then decrement one
token when available. -/
def takeScript (b0 : Bucket) (now defmaxtokens definterval : LuaNum) :
    Bucket × TakeResult :=
  let start := b0.start.getD now
  let b1 := if b0.start.isSome then b0
            else { b0 with start := some now, expiry := some (.fin 30) }
  let lasttick := b1.tick.getD (.fin 0)
  let b2 := if b1.tick.isSome then b1
            else { b1 with tick := some (.fin 0), expiry := some (.fin 30) }
  let maxtokens := b2.maxTokens.getD defmaxtokens
  let tokens := b2.tokens.getD maxtokens
  let interval := b2.interval.getD definterval
  let currtick := tickFn start now interval
  let nexttime := start.add ((currtick.add (.fin 1)).mul interval)
  let refill := lasttick.blt currtick
  let tokens1 := if refill then
      availabletokens lasttick currtick maxtokens (interval.div tokens)
    else tokens
  let b3 := if refill then
      { b2 with start := some start, tick := some currtick,
                interval := some interval, tokens := some tokens1,
                expiry := some (ttlFn interval) }
    else b2
  if tokens1.bgt (.fin 0) then
    ({ b3 with tokens := some (tokens1.sub (.fin 1)),
               expiry := some (ttlFn interval) },
     ⟨maxtokens, tokens1.sub (.fin 1), nexttime, true⟩)
  else
    (b3, ⟨maxtokens, tokens1, nexttime, false⟩)

/-! ## Go-level operations

`store.Set`, `store.Burst` and `store.Get` act on the same hash directly
(`HSET`/`HINCRBY`/`HMGET` plus `EXPIRE`); `store.Take` runs `takeScript`;
`store.Close` flips the process-wide stopped flag with a compare-and-swap.
-/

/-- `weekSeconds` from `store.go`: expiry used by `Set` and `Burst`. -/
def weekSeconds : ℕ := 60 * 60 * 24 * 7

/-- `store.Set`: `HSET key k tokens m tokens i interval` followed by
`EXPIRE key weekSeconds`.  `tokens` is a `uint64`, `interval` the
nanosecond count of a `time.Duration`. -/
def setGoB (b : Bucket) (tokens : ℕ) (interval : ℕ) : Bucket :=
  { b with tokens := some (.fin tokens),
           maxTokens := some (.fin tokens),
           interval := some (.fin interval),
           expiry := some (.fin weekSeconds) }

/-- `store.Burst`: `HINCRBY key k tokens` followed by
`EXPIRE key weekSeconds`.  `HINCRBY` treats a missing field as `0` and
fails (leaving the field unchanged) when the stored value is not an
integer. -/
def burstGoB (b : Bucket) (tokens : ℕ) : Bucket :=
  match b.tokens with
  | none => { b with tokens := some (.fin tokens),
                     expiry := some (.fin weekSeconds) }
  | some (.fin q) =>
      if q.den = 1 then
        { b with tokens := some (.fin (q + tokens)),
                 expiry := some (.fin weekSeconds) }
      else b
  | some _ => b

/-- One client-visible mutation of a bucket, as issued by a `store`
configured with fixed defaults. -/
inductive StoreOp where
  | take : ℚ → StoreOp
  | set : ℕ → ℕ → StoreOp
  | burst : ℕ → StoreOp
deriving DecidableEq

/-- Apply one operation to a bucket, the `take` using the store's
configured default capacity `dm` and default interval `di`. -/
def applyOp (dm di : ℕ) (b : Bucket) : StoreOp → Bucket
  | .take now => (takeScript b (.fin now) (.fin dm) (.fin di)).1
  | .set t i => setGoB b t i
  | .burst t => burstGoB b t

/-- Run a sequence of operations left to right. -/
def runOps (dm di : ℕ) (b : Bucket) : List StoreOp → Bucket
  | [] => b
  | o :: rest => runOps dm di (applyOp dm di b o) rest

/-- The resting-state comparison of claim C4: the stored `tokens` field
does not exceed the stored `maxTokens` field (vacuously true while either
field is absent). -/
def tokensLeMax (b : Bucket) : Bool :=
  match b.tokens, b.maxTokens with
  | some t, some m => !(t.bgt m)
  | _, _ => true

/-- An operation is a `burst`. -/
def StoreOp.isBurst : StoreOp → Bool
  | .burst _ => true
  | _ => false

/-- The process-wide state of a `store` value: its configuration, the
stopped flag, and whether the pool/client has been torn down. -/
structure GoStore where
  tokens : ℕ
  interval : ℕ
  stopped : Bool
  poolClosed : Bool
deriving DecidableEq

/-- `limiter.ErrStopped`, the only error the lifecycle claims exercise. -/
inductive StoreErr where
  | stopped : StoreErr
deriving DecidableEq

/-- `store.Close`: `CompareAndSwapUint32(&s.stopped, 0, 1)`; only the
winning call closes the pool, a later call returns `nil` untouched. -/
def closeGo (s : GoStore) : GoStore × Except StoreErr Unit :=
  if s.stopped then (s, .ok ())
  else ({ s with stopped := true, poolClosed := true }, .ok ())

/-- `store.Take`: rejected with `ErrStopped` before contacting Redis when
the store is stopped, otherwise one atomic run of `takeScript` with the
store's configured defaults. -/
def takeGo (s : GoStore) (b : Bucket) (now : ℚ) :
    Except StoreErr TakeResult × Bucket :=
  if s.stopped then (.error .stopped, b)
  else
    let r := takeScript b (.fin now) (.fin s.tokens) (.fin s.interval)
    (.ok r.2, r.1)

/-- `store.Set` behind the stopped-flag gate. -/
def setGo (s : GoStore) (b : Bucket) (tokens interval : ℕ) :
    Except StoreErr Unit × Bucket :=
  if s.stopped then (.error .stopped, b) else (.ok (), setGoB b tokens interval)

/-- `store.Burst` behind the stopped-flag gate. -/
def burstGo (s : GoStore) (b : Bucket) (tokens : ℕ) :
    Except StoreErr Unit × Bucket :=
  if s.stopped then (.error .stopped, b) else (.ok (), burstGoB b tokens)

/-! ## `store.Get` (go-redis variant)

`Get` reads the raw strings stored under fields `m` and `k` with `HMGET`
and decodes each with `strconv.ParseUint(v, 10, 64)`, discarding the
error, so it is modelled at the string level. -/

/-- The raw strings `HMGET key m k` can observe. -/
structure RawBucket where
  maxS : Option String
  tokS : Option String
deriving DecidableEq

/-- `strconv.ParseUint(s, 10, 64)` with the error discarded: a syntax
error (empty string, any non-digit, a sign) yields `0`; a well-formed
number too large for 64 bits yields the saturated maximum. -/
def goParseUint64 (s : String) : ℕ :=
  if s.length ≠ 0 ∧ s.data.all (fun c => c.isDigit) then
    let v := s.data.foldl (fun acc c => acc * 10 + (c.toNat - 48)) 0
    if v < 2 ^ 64 then v else 2 ^ 64 - 1
  else 0

/-- A missing (`nil`) field decodes to the `uint64` zero value. -/
def parseField : Option String → ℕ
  | none => 0
  | some s => goParseUint64 s

/-- `store.Get`: stopped-flag gate, then `HMGET key m k` decoded leniently;
no refill computation and no write of any kind. -/
def getGo (s : GoStore) (rb : RawBucket) :
    Except StoreErr (ℕ × ℕ) × RawBucket :=
  if s.stopped then (.error .stopped, rb)
  else (.ok (parseField rb.maxS, parseField rb.tokS), rb)

example : LuaNum.blt (.fin 0) (.fin 1) = true := by decide
example : tickFn (.fin 0) (.fin 0) (.fin 5) = .fin 0 := by decide
example : ttlFn (.fin 1000000000) = .fin 3 := by decide
example :
    (takeScript emptyBucket (.fin 0) (.fin 2) (.fin 1000000000)).2 =
      ⟨.fin 2, .fin 1, .fin 1000000000, true⟩ := by decide
example :
    (takeScript emptyBucket (.fin 0) (.fin 2) (.fin 1000000000)).1 =
      ⟨some (.fin 0), some (.fin 0), none, some (.fin 1), none, some (.fin 3)⟩ := by
  decide

/-! ## Helper lemmas about the script arithmetic -/

namespace LuaNum

theorem bgt_self_false (x : LuaNum) : x.bgt x = false := by
  cases x <;> simp [bgt, blt]

theorem sub_one_bgt_false (x m : LuaNum) (h : x.bgt m = false) :
    (x.sub (.fin 1)).bgt m = false := by
  cases x <;> cases m <;> simp_all [bgt, blt, sub]
  rename_i a b
  linarith

end LuaNum

/-- The clamp in `availabletokens` guarantees the result never exceeds the
`max` argument, whatever the other inputs are. -/
theorem availabletokens_bgt_false (last curr max fillrate : LuaNum) :
    (availabletokens last curr max fillrate).bgt max = false := by
  unfold availabletokens
  by_cases h : ((curr.sub last).mul fillrate).bgt max = true
  · simp [h, LuaNum.bgt_self_false]
  · simp only [Bool.not_eq_true] at h
    simp [h]

/-- `tick(start, curr, interval)` computes `max(0, ⌊(curr − start)/interval⌋)`
whenever the interval is a nonzero finite number. -/
theorem tickFn_eq (st c ivl : ℚ) (h : ivl ≠ 0) :
    tickFn (.fin st) (.fin c) (.fin ivl) =
      .fin ((max 0 ⌊(c - st) / ivl⌋ : ℤ) : ℚ) := by
  simp only [tickFn, LuaNum.sub, LuaNum.div, if_neg h, LuaNum.floor,
    LuaNum.bgt, LuaNum.blt]
  rcases le_or_lt (⌊(c - st) / ivl⌋ : ℤ) 0 with hle | hlt
  · rw [max_eq_left hle]
    have : ¬ ((0 : ℚ) < (⌊(c - st) / ivl⌋ : ℤ)) := by exact_mod_cast not_lt.mpr hle
    simp [this]
  · rw [max_eq_right hlt.le]
    have : (0 : ℚ) < (⌊(c - st) / ivl⌋ : ℤ) := by exact_mod_cast hlt
    simp [this]

/-- When the elapsed ticks are positive, the interval positive and the
pre-refill token count nonnegative, `availabletokens` applied to the rate
`interval / tokens` is exactly the specification's
`min(capacity, (currentTick − tick) × fillRate)` — including `tokens = 0`,
where the rate is `+inf` and the minimum resolves to the capacity. -/
theorem availabletokens_eq_specMin (lt ct mx ivl tk : ℚ)
    (hlt : lt < ct) (hivl : 0 < ivl) (htk : 0 ≤ tk) :
    availabletokens (.fin lt) (.fin ct) (.fin mx)
        ((LuaNum.fin ivl).div (.fin tk)) =
      specMin (.fin mx) ((LuaNum.fin (ct - lt)).mul
        ((LuaNum.fin ivl).div (.fin tk))) := by
  rcases eq_or_lt_of_le htk with h0 | hpos
  · subst h0
    have hd : (0 : ℚ) < ct - lt := sub_pos.mpr hlt
    simp [availabletokens, specMin, LuaNum.div, LuaNum.sub, LuaNum.mul,
      LuaNum.bgt, LuaNum.blt, LuaNum.ble, hivl, hd]
  · have htkne : tk ≠ 0 := ne_of_gt hpos
    simp only [availabletokens, specMin, LuaNum.div, if_neg htkne,
      LuaNum.sub, LuaNum.mul, LuaNum.bgt, LuaNum.blt, LuaNum.ble]
    by_cases hc : mx < (ct - lt) * (ivl / tk)
    · simp [hc, le_of_lt hc]
    · by_cases he : mx ≤ (ct - lt) * (ivl / tk)
      · have : mx = (ct - lt) * (ivl / tk) := le_antisymm he (not_lt.mp hc)
        simp [hc, he, this]
      · simp [hc, he]

/-- First `Take` on a never-seen key: `start` is initialised to `now`, the
current tick is `0`, no refill runs, the bucket is treated as full and one
token is removed. -/
theorem takeScript_fresh (τ : ℚ) (N I : ℕ) (hN : 0 < N) (hI : 0 < (I : ℚ)) :
    takeScript emptyBucket (.fin τ) (.fin N) (.fin I) =
      (⟨some (.fin τ), some (.fin 0), none, some (.fin ((N : ℚ) - 1)), none,
        some (ttlFn (.fin I))⟩,
       ⟨.fin N, .fin ((N : ℚ) - 1), .fin (τ + I), true⟩) := by
  have hIne : (I : ℚ) ≠ 0 := ne_of_gt hI
  have ht : tickFn (.fin τ) (.fin τ) (.fin I) = .fin 0 := by
    rw [tickFn_eq τ τ I hIne]
    norm_num
  have hN' : (0 : ℚ) < N := by exact_mod_cast hN
  simp [takeScript, emptyBucket, ht, LuaNum.blt, LuaNum.add, LuaNum.mul,
    LuaNum.sub, LuaNum.bgt, hN']

/-- `Take` on a bucket whose `start`/`tick`/`tokens` fields are set, at a
time within the first interval of the grid: the current tick is still `0`,
no refill runs, and the call decrements exactly when a token is left. -/
theorem takeScript_established (t0 τ k : ℚ) (N I : ℕ) (e : Option LuaNum)
    (hge : t0 ≤ τ) (hlt : τ < t0 + I) (hI : 0 < (I : ℚ)) :
    takeScript ⟨some (.fin t0), some (.fin 0), none, some (.fin k), none, e⟩
        (.fin τ) (.fin N) (.fin I) =
      if 0 < k then
        (⟨some (.fin t0), some (.fin 0), none, some (.fin (k - 1)), none,
          some (ttlFn (.fin I))⟩,
         ⟨.fin N, .fin (k - 1), .fin (t0 + I), true⟩)
      else
        (⟨some (.fin t0), some (.fin 0), none, some (.fin k), none, e⟩,
         ⟨.fin N, .fin k, .fin (t0 + I), false⟩) := by
  have hIne : (I : ℚ) ≠ 0 := ne_of_gt hI
  have ht : tickFn (.fin t0) (.fin τ) (.fin I) = .fin 0 := by
    rw [tickFn_eq t0 τ I hIne]
    have h1 : (0 : ℚ) ≤ (τ - t0) / I := div_nonneg (by linarith) hI.le
    have h2 : (τ - t0) / I < 1 := (div_lt_one hI).mpr (by linarith)
    have : ⌊(τ - t0) / I⌋ = 0 := Int.floor_eq_zero_iff.mpr ⟨h1, h2⟩
    simp [this]
  by_cases hk : 0 < k
  · simp [takeScript, ht, LuaNum.blt, LuaNum.add, LuaNum.mul, LuaNum.sub,
      LuaNum.bgt, hk, if_pos hk]
  · simp [takeScript, ht, LuaNum.blt, LuaNum.add, LuaNum.mul, LuaNum.sub,
      LuaNum.bgt, hk, if_neg hk]

/-! ## Claim theorems -/

/-- C1: whenever the stored tick is strictly below the current tick, the
refill step stores `min(capacity, (currentTick − tick) × fillRate)` with
`fillRate = interval / tokens` taken from the pre-refill token count, and
stores `tick = currentTick`.  The stored token count is additionally
decremented by the final consume step exactly when it is positive. -/
theorem refill_sets_min_capacity_rate (b : Bucket) (now st lt tk mx ivl : ℚ)
    (dm di : LuaNum)
    (hst : b.start = some (.fin st))
    (htk : b.tick = some (.fin lt))
    (hmx : b.maxTokens.getD dm = .fin mx)
    (htok : b.tokens.getD (b.maxTokens.getD dm) = .fin tk)
    (hivl : b.interval.getD di = .fin ivl)
    (hipos : 0 < ivl) (htknn : 0 ≤ tk)
    (hrefill : lt < ((max 0 ⌊(now - st) / ivl⌋ : ℤ) : ℚ)) :
    (takeScript b (.fin now) dm di).1.tick =
        some (.fin ((max 0 ⌊(now - st) / ivl⌋ : ℤ) : ℚ)) ∧
    (takeScript b (.fin now) dm di).1.tokens =
        some (let rv := specMin (.fin mx)
                ((LuaNum.fin (((max 0 ⌊(now - st) / ivl⌋ : ℤ) : ℚ) - lt)).mul
                  ((LuaNum.fin ivl).div (.fin tk)));
              if rv.bgt (.fin 0) then rv.sub (.fin 1) else rv) := by
  set ct : ℚ := ((max 0 ⌊(now - st) / ivl⌋ : ℤ) : ℚ) with hct
  have htick : tickFn (.fin st) (.fin now) (.fin ivl) = .fin ct :=
    tickFn_eq st now ivl (ne_of_gt hipos)
  have htok' : b.tokens.getD (.fin mx) = .fin tk := by rw [← hmx]; exact htok
  have havail : availabletokens (.fin lt) (.fin ct) (.fin mx)
      ((LuaNum.fin ivl).div (.fin tk)) =
      specMin (.fin mx) ((LuaNum.fin (ct - lt)).mul
        ((LuaNum.fin ivl).div (.fin tk))) :=
    availabletokens_eq_specMin lt ct mx ivl tk hrefill hipos htknn
  simp only [takeScript, hst, htk, Option.isSome_some, if_true,
    Option.getD_some, hmx, htok', hivl, htick, LuaNum.blt,
    decide_eq_true_eq, if_pos hrefill, havail]
  by_cases hb : (specMin (.fin mx) ((LuaNum.fin (ct - lt)).mul
      ((LuaNum.fin ivl).div (.fin tk)))).bgt (.fin 0) = true
  · simp [hb]
  · simp only [Bool.not_eq_true] at hb
    simp [hb]

/-- C6: entering the refill with a pre-refill token count of zero, the rate
`interval / tokens` is `+inf`, the intermediate `delta × fillRate` is
`+inf` as well, and the clamp of `availabletokens` makes the refilled
token count exactly the capacity; the division itself is total, so no
zero-divisor special case is needed. -/
theorem zero_tokens_refill_clamps_to_capacity (ivl lt ct mx : ℚ)
    (hivl : 0 < ivl) (hlt : lt < ct) :
    (LuaNum.fin ivl).div (.fin 0) = .pinf ∧
    ((LuaNum.fin ct).sub (.fin lt)).mul ((LuaNum.fin ivl).div (.fin 0)) = .pinf ∧
    availabletokens (.fin lt) (.fin ct) (.fin mx)
        ((LuaNum.fin ivl).div (.fin 0)) = .fin mx := by
  have hd : (0 : ℚ) < ct - lt := sub_pos.mpr hlt
  refine ⟨?_, ?_, ?_⟩ <;>
    simp [availabletokens, LuaNum.div, LuaNum.sub, LuaNum.mul, LuaNum.bgt,
      LuaNum.blt, hivl, hd]

/-- The reset time returned by one script run, in closed form: `st` is the
resolved start (the stored one, or `now` on a fresh key). -/
theorem takeScript_next (b : Bucket) (now st ivl : ℚ) (dm di : LuaNum)
    (hst : b.start.getD (.fin now) = .fin st)
    (hivl : b.interval.getD di = .fin ivl)
    (hpos : 0 < ivl) :
    (takeScript b (.fin now) dm di).2.next =
      .fin (st + (((max 0 ⌊(now - st) / ivl⌋ : ℤ) : ℚ) + 1) * ivl) := by
  have htick : tickFn (.fin st) (.fin now) (.fin ivl) =
      .fin ((max 0 ⌊(now - st) / ivl⌋ : ℤ) : ℚ) :=
    tickFn_eq st now ivl (ne_of_gt hpos)
  rcases hs : b.start with _ | sv
  · rw [hs] at hst
    have hnow : now = st := by simpa using hst
    subst hnow
    rcases hb : b.tick with _ | v <;>
      simp only [takeScript, hs, hb, Option.isSome_some, Option.isSome_none,
        if_true, if_false, Bool.false_eq_true, Option.getD_some,
        Option.getD_none, hivl, htick, LuaNum.add, LuaNum.mul] <;>
      split <;> split <;>
      simp [LuaNum.add, LuaNum.mul]
  · rw [hs] at hst
    rw [Option.getD_some] at hst
    subst hst
    rcases hb : b.tick with _ | v <;>
      simp only [takeScript, hs, hb, Option.isSome_some, Option.isSome_none,
        if_true, if_false, Bool.false_eq_true, Option.getD_some, hivl,
        htick, LuaNum.add, LuaNum.mul] <;>
      split <;> split <;>
      simp [LuaNum.add, LuaNum.mul]

/-- C7: the returned reset time is always
`start + (currentTick + 1) × interval` with
`currentTick = max(0, ⌊(now − start)/interval⌋)`, for allowed and denied
takes alike; and the tick is floored, so a call exactly on a boundary
(`now − start = k × interval`) already belongs to tick `k`. -/
theorem next_refill_time_formula (b : Bucket) (now st ivl : ℚ) (dm di : LuaNum)
    (hst : b.start.getD (.fin now) = .fin st)
    (hivl : b.interval.getD di = .fin ivl)
    (hpos : 0 < ivl) :
    ((takeScript b (.fin now) dm di).2.next =
      .fin (st + (((max 0 ⌊(now - st) / ivl⌋ : ℤ) : ℚ) + 1) * ivl)) ∧
    (∀ k : ℕ, now - st = k * ivl →
      ((max 0 ⌊(now - st) / ivl⌋ : ℤ) : ℚ) = k) := by
  constructor
  · exact takeScript_next b now st ivl dm di hst hivl hpos
  · intro k hk
    rw [hk, mul_div_assoc, div_self (ne_of_gt hpos), mul_one]
    norm_num

/-! ## Consecutive takes on one fresh key -/

/-- The bucket after `i` consecutive `Take` calls on a fresh key, the
`i`-th call made at time `times i`, with default capacity `N` and default
interval `I` nanoseconds. -/
def takeSeq (N I : ℕ) (times : ℕ → ℚ) : ℕ → Bucket
  | 0 => emptyBucket
  | i + 1 => (takeScript (takeSeq N I times i) (.fin (times i)) (.fin N) (.fin I)).1

/-- The script result of the `i`-th (0-indexed) `Take` call of `takeSeq`. -/
def takeSeqRes (N I : ℕ) (times : ℕ → ℚ) (i : ℕ) : TakeResult :=
  (takeScript (takeSeq N I times i) (.fin (times i)) (.fin N) (.fin I)).2

/-- State characterisation: after `i ∈ [1, N]` takes inside the first
interval, the bucket holds `start = times 0`, `tick = 0`, `tokens = N − i`,
and no stored `interval`/`maxTokens`. -/
theorem takeSeq_eq (N I : ℕ) (times : ℕ → ℚ) (hN : 1 ≤ N) (hI : 0 < (I : ℚ))
    (hwin : ∀ j, j ≤ N → times 0 ≤ times j ∧ times j < times 0 + I) :
    ∀ i, 1 ≤ i → i ≤ N →
      takeSeq N I times i =
        ⟨some (.fin (times 0)), some (.fin 0), none,
         some (.fin ((N : ℚ) - i)), none, some (ttlFn (.fin I))⟩ := by
  intro i
  induction i with
  | zero => intro h1 _; exact absurd h1 (by norm_num)
  | succ n ih =>
    intro _ h2
    rcases Nat.eq_zero_or_pos n with hn0 | hnpos
    · subst hn0
      have h0 : takeSeq N I times 1 =
          (takeScript emptyBucket (.fin (times 0)) (.fin N) (.fin I)).1 := rfl
      rw [h0, takeScript_fresh (times 0) N I (by omega) hI]
      norm_num
    · have hi2 : n ≤ N := by omega
      have hnN : n < N := by omega
      have hkpos : (0 : ℚ) < (N : ℚ) - n := by
        have : (n : ℚ) < N := by exact_mod_cast hnN
        linarith
      have hw := hwin n (by omega)
      have hstep : takeSeq N I times (n + 1) =
          (takeScript (takeSeq N I times n) (.fin (times n)) (.fin N) (.fin I)).1 := rfl
      rw [hstep, ih hnpos hi2,
        takeScript_established (times 0) (times n) ((N : ℚ) - n) N I _ hw.1 hw.2 hI,
        if_pos hkpos]
      have : (N : ℚ) - n - 1 = (N : ℚ) - (n + 1 : ℕ) := by push_cast; ring
      rw [this]

/-- C2: on a fresh key with default capacity `N ≥ 1`, the first `N` takes
inside the first interval are all allowed with `remaining` decreasing by
exactly one each call (`N − 1, N − 2, …, 0`), and the `(N+1)`-th take in
the same interval is denied with `remaining = 0` and the same limit. -/
theorem first_interval_take_sequence (N I : ℕ) (times : ℕ → ℚ)
    (hN : 1 ≤ N) (hI : 0 < (I : ℚ))
    (hwin : ∀ j, j ≤ N → times 0 ≤ times j ∧ times j < times 0 + I) :
    (∀ i, i < N → takeSeqRes N I times i =
      ⟨.fin N, .fin ((N : ℚ) - (i + 1)), .fin (times 0 + I), true⟩) ∧
    takeSeqRes N I times N = ⟨.fin N, .fin 0, .fin (times 0 + I), false⟩ := by
  constructor
  · intro i hi
    rcases Nat.eq_zero_or_pos i with hi0 | hipos
    · subst hi0
      have h0 : takeSeqRes N I times 0 =
          (takeScript emptyBucket (.fin (times 0)) (.fin N) (.fin I)).2 := rfl
      rw [h0, takeScript_fresh (times 0) N I (by omega) hI]
      norm_num
    · have hkpos : (0 : ℚ) < (N : ℚ) - i := by
        have : (i : ℚ) < N := by exact_mod_cast hi
        linarith
      have hw := hwin i (by omega)
      rw [takeSeqRes,
        takeSeq_eq N I times hN hI hwin i hipos (by omega),
        takeScript_established (times 0) (times i) ((N : ℚ) - i) N I _ hw.1 hw.2 hI,
        if_pos hkpos]
      have : (N : ℚ) - i - 1 = (N : ℚ) - ((i : ℚ) + 1) := by ring
      rw [this]
  · have hw := hwin N le_rfl
    have hz : (N : ℚ) - N = 0 := by ring
    rw [takeSeqRes, takeSeq_eq N I times hN hI hwin N hN le_rfl,
      takeScript_established (times 0) (times N) ((N : ℚ) - N) N I _ hw.1 hw.2 hI,
      if_neg (by rw [hz]; exact lt_irrefl 0), hz]

/-- C3: the first `Take` on a never-seen key (no stored fields, so the
token count is synthesised as the full capacity) is allowed and returns
`remaining = capacity − 1` and `limit = capacity`. -/
theorem fresh_key_first_take (τ : ℚ) (N I : ℕ) (hN : 1 ≤ N) (hI : 0 < (I : ℚ)) :
    emptyBucket.tokens = none ∧
    (takeScript emptyBucket (.fin τ) (.fin N) (.fin I)).2.allowed = true ∧
    (takeScript emptyBucket (.fin τ) (.fin N) (.fin I)).2.remaining =
      .fin ((N : ℚ) - 1) ∧
    (takeScript emptyBucket (.fin τ) (.fin N) (.fin I)).2.limit = .fin N := by
  rw [takeScript_fresh τ N I (by omega) hI]
  exact ⟨rfl, rfl, rfl, rfl⟩

/-- A `Take` never writes the `maxTokens` field. -/
theorem takeScript_maxTokens (b : Bucket) (now dm di : LuaNum) :
    (takeScript b now dm di).1.maxTokens = b.maxTokens := by
  rcases b with ⟨os, ot, oi, ok, om, oe⟩
  cases os <;> cases ot <;>
    · simp [takeScript]
      split_ifs <;> rfl

/-- The `tokens` field after a `Take`: the refilled (or carried-over)
count, decremented when the consume step ran. -/
theorem takeScript_tokens_eq (b : Bucket) (now dm di : LuaNum) :
    (takeScript b now dm di).1.tokens =
      (let lasttick := b.tick.getD (.fin 0)
       let maxtokens := b.maxTokens.getD dm
       let tokens := b.tokens.getD maxtokens
       let interval := b.interval.getD di
       let currtick := tickFn (b.start.getD now) now interval
       let refill := lasttick.blt currtick
       let tokens1 := if refill then
           availabletokens lasttick currtick maxtokens (interval.div tokens)
         else tokens
       if tokens1.bgt (.fin 0) then some (tokens1.sub (.fin 1))
       else if refill then some tokens1 else b.tokens) := by
  rcases b with ⟨os, ot, oi, ok, om, oe⟩
  cases os <;> cases ot <;>
    · simp [takeScript]
      split_ifs <;> rfl

/-! ## The tokens-vs-capacity invariant -/

/-- The stored `tokens` value never exceeds the resolved capacity (the
stored `maxTokens` when present, the store default `dm` otherwise). -/
def TokensBounded (dm : LuaNum) (b : Bucket) : Prop :=
  ∀ t, b.tokens = some t → t.bgt (b.maxTokens.getD dm) = false

theorem if_bgt_false (c : Bool) (x y m : LuaNum)
    (hx : x.bgt m = false) (hy : y.bgt m = false) :
    (if c then x else y).bgt m = false := by
  cases c <;> simpa

theorem tokens_after_bound (m tok1 : LuaNum) (prev : Option LuaNum)
    (refill : Bool) (t : LuaNum)
    (h1 : tok1.bgt m = false)
    (hprev : ∀ t0, prev = some t0 → t0.bgt m = false)
    (ht : (if tok1.bgt (.fin 0) then some (tok1.sub (.fin 1))
           else if refill then some tok1 else prev) = some t) :
    t.bgt m = false := by
  by_cases hb : tok1.bgt (.fin 0) = true
  · rw [if_pos hb] at ht
    obtain rfl := Option.some.inj ht
    exact LuaNum.sub_one_bgt_false tok1 m h1
  · rw [if_neg hb] at ht
    by_cases hr : refill = true
    · rw [if_pos hr] at ht
      obtain rfl := Option.some.inj ht
      exact h1
    · rw [if_neg hr] at ht
      exact hprev t ht

/-- A `Take` preserves the tokens-vs-capacity bound, for any call time. -/
theorem takeScript_preserves_bound (b : Bucket) (now dm di : LuaNum)
    (h : TokensBounded dm b) :
    TokensBounded dm (takeScript b now dm di).1 := by
  intro t ht
  rw [takeScript_maxTokens]
  rw [takeScript_tokens_eq] at ht
  simp only at ht
  have hbase : (b.tokens.getD (b.maxTokens.getD dm)).bgt
      (b.maxTokens.getD dm) = false := by
    rcases hk : b.tokens with _ | t0
    · simp [LuaNum.bgt_self_false]
    · simpa using h t0 hk
  exact tokens_after_bound _ _ _ _ t
    (if_bgt_false _ _ _ _ (availabletokens_bgt_false _ _ _ _) hbase)
    h ht

/-- A `Set` writes `tokens = maxTokens`, so the bound holds afterwards. -/
theorem setGoB_bound (b : Bucket) (t i : ℕ) (dm : LuaNum) :
    TokensBounded dm (setGoB b t i) := by
  intro v hv
  simp only [setGoB, Option.some.injEq] at hv
  subst hv
  simp [setGoB, LuaNum.bgt_self_false]

/-- Any burst-free operation sequence started on a fresh key keeps the
stored tokens bounded by the resolved capacity. -/
theorem runOps_no_burst_bound (dm di : ℕ) (ops : List StoreOp)
    (hops : ∀ o ∈ ops, o.isBurst = false) :
    ∀ b, TokensBounded (.fin dm) b →
      TokensBounded (.fin dm) (runOps dm di b ops) := by
  induction ops with
  | nil => intro b hb; exact hb
  | cons o rest ih =>
    intro b hb
    have ho : o.isBurst = false := hops o (by simp)
    have hrest : ∀ o' ∈ rest, o'.isBurst = false := by
      intro o' h'
      exact hops o' (by simp [h'])
    refine ih hrest _ ?_
    cases o with
    | take now => exact takeScript_preserves_bound b _ _ _ hb
    | set t i => exact setGoB_bound b t i _
    | burst t => simp [StoreOp.isBurst] at ho

/-- C4 (amended): for every bucket state reachable from a fresh key by
`Take` and `Set` operations alone, the stored `tokens` never exceeds the
stored `maxTokens` at rest.  (`Burst` is excluded: see the
counterexample.) -/
theorem take_set_tokens_le_max (dm di : ℕ) (ops : List StoreOp)
    (hops : ∀ o ∈ ops, o.isBurst = false) :
    tokensLeMax (runOps dm di emptyBucket ops) = true := by
  have hinv := runOps_no_burst_bound dm di ops hops emptyBucket
    (by intro t ht; simp [emptyBucket] at ht)
  unfold tokensLeMax
  rcases hk : (runOps dm di emptyBucket ops).tokens with _ | t
  · rcases (runOps dm di emptyBucket ops).maxTokens with _ | m <;> rfl
  · rcases hm : (runOps dm di emptyBucket ops).maxTokens with _ | m
    · rfl
    · have := hinv t hk
      rw [hm] at this
      simp only [Option.getD_some] at this
      simp [this]

/-- C4 (counterexample): `Set key 5` then `Burst key 3` leaves
`tokens = 8 > maxTokens = 5` at rest. -/
theorem burst_breaks_tokens_le_max :
    tokensLeMax (runOps 1 1000000000 emptyBucket
      [.set 5 1000000000, .burst 3]) = false := by decide

/-- C5: whenever a `Take` persists refilled or decremented state (refill
condition holds, or the take is allowed), the key's expiry is set to
`ttl(interval) = 3 × (interval in whole seconds)`; and for every positive
interval that value is exactly three times the nanosecond interval
converted to (floored) seconds. -/
theorem take_expiry_three_intervals (b : Bucket) (now dm di : LuaNum) :
    (((b.tick.getD (.fin 0)).blt
          (tickFn (b.start.getD now) now (b.interval.getD di)) = true ∨
        (takeScript b now dm di).2.allowed = true) →
      (takeScript b now dm di).1.expiry = some (ttlFn (b.interval.getD di))) ∧
    (∀ q : ℚ, 0 < q →
      ttlFn (.fin q) = .fin (3 * ((⌊q / 1000000000⌋ : ℤ) : ℚ))) := by
  constructor
  · rcases b with ⟨os, ot, oi, ok, om, oe⟩
    cases os <;> cases ot <;>
      · simp [takeScript]
        split_ifs <;> simp_all
  · intro q hq
    have h9 : (1000000000 : ℚ) ≠ 0 := by norm_num
    simp [ttlFn, LuaNum.div, h9, LuaNum.floor, LuaNum.mul]

/-- C8: `Close` is idempotent — only the first call tears the pool down,
any later call succeeds without touching it — and once closed every
operation returns the stopped error with the store state untouched. -/
theorem close_idempotent_and_gates (s : GoStore) :
    (s.stopped = false →
      closeGo s = ({ s with stopped := true, poolClosed := true }, .ok ())) ∧
    closeGo (closeGo s).1 = ((closeGo s).1, .ok ()) ∧
    (∀ b now, takeGo (closeGo s).1 b now = (.error .stopped, b)) ∧
    (∀ b t i, setGo (closeGo s).1 b t i = (.error .stopped, b)) ∧
    (∀ b t, burstGo (closeGo s).1 b t = (.error .stopped, b)) ∧
    (∀ rb, getGo (closeGo s).1 rb = (.error .stopped, rb)) := by
  have hstop : (closeGo s).1.stopped = true := by
    by_cases hs : s.stopped = true <;> simp [closeGo, hs]
  refine ⟨?_, ?_, ?_, ?_, ?_, ?_⟩
  · intro h
    simp [closeGo, h]
  · conv_lhs => rw [closeGo]
    rw [if_pos hstop]
  · intro b now
    simp [takeGo, hstop]
  · intro b t i
    simp [setGo, hstop]
  · intro b t
    simp [burstGo, hstop]
  · intro rb
    simp [getGo, hstop]

/-- C9: on a running store, `Get` returns the decoded `maxTokens` and
`tokens` strings with no refill computation and no state change; a missing
field decodes to zero, and a stored string that is not a well-formed
decimal integer also decodes to zero instead of raising an error. -/
theorem get_reads_raw_fields (s : GoStore) (rb : RawBucket)
    (hs : s.stopped = false) :
    getGo s rb = (.ok (parseField rb.maxS, parseField rb.tokS), rb) ∧
    parseField none = 0 ∧
    (∀ str : String,
      ¬ (str.length ≠ 0 ∧ str.data.all (fun c => c.isDigit)) →
        goParseUint64 str = 0) := by
  refine ⟨by simp [getGo, hs], rfl, ?_⟩
  intro str hstr
  unfold goParseUint64
  rw [if_neg hstr]

/-- C10: `Set` writes exactly the `tokens`, `maxTokens` and `interval`
fields plus the week-long expiry, leaving `start` and `tick` untouched, so
a later `Take` still computes its reset time from the original grid
origin. -/
theorem set_preserves_grid (b : Bucket) (t i : ℕ) :
    (setGoB b t i).start = b.start ∧
    (setGoB b t i).tick = b.tick ∧
    (setGoB b t i).tokens = some (.fin t) ∧
    (setGoB b t i).maxTokens = some (.fin t) ∧
    (setGoB b t i).interval = some (.fin i) ∧
    (setGoB b t i).expiry = some (.fin weekSeconds) ∧
    (∀ st now : ℚ, ∀ dm di : LuaNum,
      b.start = some (.fin st) → 0 < (i : ℚ) →
      (takeScript (setGoB b t i) (.fin now) dm di).2.next =
        .fin (st + (((max 0 ⌊(now - st) / (i : ℚ)⌋ : ℤ) : ℚ) + 1) * i)) := by
  refine ⟨rfl, rfl, rfl, rfl, rfl, rfl, ?_⟩
  intro st now dm di hst hpos
  exact takeScript_next (setGoB b t i) now st i dm di
    (by simp [setGoB, hst]) (by simp [setGoB]) hpos

/-! ## Concrete witnesses -/

theorem refill_sets_min_capacity_rate_witness :
    (takeScript ⟨some (.fin 0), some (.fin 0), some (.fin 5), some (.fin 2),
        none, none⟩ (.fin 7) (.fin 3) (.fin 9)).1.tick =
      some (.fin ((max 0 ⌊((7 : ℚ) - 0) / 5⌋ : ℤ) : ℚ)) ∧
    (takeScript ⟨some (.fin 0), some (.fin 0), some (.fin 5), some (.fin 2),
        none, none⟩ (.fin 7) (.fin 3) (.fin 9)).1.tokens =
      some (let rv := specMin (.fin 3)
              ((LuaNum.fin (((max 0 ⌊((7 : ℚ) - 0) / 5⌋ : ℤ) : ℚ) - 0)).mul
                ((LuaNum.fin 5).div (.fin 2)));
            if rv.bgt (.fin 0) then rv.sub (.fin 1) else rv) :=
  refill_sets_min_capacity_rate
    ⟨some (.fin 0), some (.fin 0), some (.fin 5), some (.fin 2), none, none⟩
    7 0 0 2 3 5 (.fin 3) (.fin 9) rfl rfl rfl rfl rfl (by norm_num)
    (by norm_num) (by decide)

theorem zero_tokens_refill_clamps_witness :
    (LuaNum.fin 5).div (.fin 0) = .pinf ∧
    ((LuaNum.fin 1).sub (.fin 0)).mul ((LuaNum.fin 5).div (.fin 0)) = .pinf ∧
    availabletokens (.fin 0) (.fin 1) (.fin 4)
        ((LuaNum.fin 5).div (.fin 0)) = .fin 4 :=
  zero_tokens_refill_clamps_to_capacity 5 0 1 4 (by norm_num) (by norm_num)

theorem next_refill_time_formula_witness :
    ((takeScript ⟨some (.fin 0), none, some (.fin 5), none, none, none⟩
        (.fin 7) (.fin 3) (.fin 9)).2.next =
      .fin (0 + (((max 0 ⌊((7 : ℚ) - 0) / 5⌋ : ℤ) : ℚ) + 1) * 5)) ∧
    (∀ k : ℕ, (7 : ℚ) - 0 = k * 5 →
      ((max 0 ⌊((7 : ℚ) - 0) / 5⌋ : ℤ) : ℚ) = k) :=
  next_refill_time_formula
    ⟨some (.fin 0), none, some (.fin 5), none, none, none⟩
    7 0 5 (.fin 3) (.fin 9) rfl rfl (by norm_num)

theorem first_interval_take_sequence_witness :
    (∀ i, i < 2 → takeSeqRes 2 1 (fun _ => 0) i =
      ⟨.fin 2, .fin ((2 : ℚ) - (i + 1)), .fin ((0 : ℚ) + (1 : ℕ)), true⟩) ∧
    takeSeqRes 2 1 (fun _ => 0) 2 =
      ⟨.fin 2, .fin 0, .fin ((0 : ℚ) + (1 : ℕ)), false⟩ :=
  first_interval_take_sequence 2 1 (fun _ => 0) (by norm_num) (by norm_num)
    (by intro j _; constructor <;> norm_num)

theorem fresh_key_first_take_witness :
    emptyBucket.tokens = none ∧
    (takeScript emptyBucket (.fin 0) (.fin 2) (.fin 1)).2.allowed = true ∧
    (takeScript emptyBucket (.fin 0) (.fin 2) (.fin 1)).2.remaining =
      .fin ((2 : ℕ) - (1 : ℚ)) ∧
    (takeScript emptyBucket (.fin 0) (.fin 2) (.fin 1)).2.limit = .fin (2 : ℕ) :=
  fresh_key_first_take 0 2 1 (by norm_num) (by norm_num)

theorem take_set_tokens_le_max_witness :
    tokensLeMax (runOps 1 5 emptyBucket [.set 4 5, .take 0]) = true :=
  take_set_tokens_le_max 1 5 [.set 4 5, .take 0] (by decide)

theorem take_expiry_three_intervals_witness :
    (takeScript emptyBucket (.fin 0) (.fin 2) (.fin 1000000000)).1.expiry =
      some (ttlFn (emptyBucket.interval.getD (.fin 1000000000))) ∧
    ttlFn (.fin 1000000000) =
      .fin (3 * ((⌊(1000000000 : ℚ) / 1000000000⌋ : ℤ) : ℚ)) :=
  ⟨(take_expiry_three_intervals emptyBucket (.fin 0) (.fin 2)
      (.fin 1000000000)).1 (Or.inr (by decide)),
   (take_expiry_three_intervals emptyBucket (.fin 0) (.fin 2)
      (.fin 1000000000)).2 1000000000 (by norm_num)⟩

theorem close_idempotent_and_gates_witness :
    ((⟨2, 5, false, false⟩ : GoStore).stopped = false →
      closeGo ⟨2, 5, false, false⟩ =
        ({ (⟨2, 5, false, false⟩ : GoStore) with
            stopped := true, poolClosed := true }, .ok ())) ∧
    closeGo (closeGo ⟨2, 5, false, false⟩).1 =
      ((closeGo ⟨2, 5, false, false⟩).1, .ok ()) ∧
    (∀ b now, takeGo (closeGo ⟨2, 5, false, false⟩).1 b now =
      (.error .stopped, b)) ∧
    (∀ b t i, setGo (closeGo ⟨2, 5, false, false⟩).1 b t i =
      (.error .stopped, b)) ∧
    (∀ b t, burstGo (closeGo ⟨2, 5, false, false⟩).1 b t =
      (.error .stopped, b)) ∧
    (∀ rb, getGo (closeGo ⟨2, 5, false, false⟩).1 rb =
      (.error .stopped, rb)) :=
  close_idempotent_and_gates ⟨2, 5, false, false⟩

theorem get_reads_raw_fields_witness :
    getGo ⟨2, 5, false, false⟩ ⟨some "abc", none⟩ =
      (.ok (parseField (some "abc"), parseField none), ⟨some "abc", none⟩) ∧
    parseField none = 0 ∧
    (∀ str : String,
      ¬ (str.length ≠ 0 ∧ str.data.all (fun c => c.isDigit)) →
        goParseUint64 str = 0) :=
  get_reads_raw_fields ⟨2, 5, false, false⟩ ⟨some "abc", none⟩ rfl

theorem set_preserves_grid_witness :
    (setGoB ⟨some (.fin 0), some (.fin 0), none, none, none, none⟩ 4 5).start =
      (⟨some (.fin 0), some (.fin 0), none, none, none, none⟩ : Bucket).start ∧
    (setGoB ⟨some (.fin 0), some (.fin 0), none, none, none, none⟩ 4 5).tick =
      (⟨some (.fin 0), some (.fin 0), none, none, none, none⟩ : Bucket).tick ∧
    (setGoB ⟨some (.fin 0), some (.fin 0), none, none, none, none⟩ 4 5).tokens =
      some (.fin 4) ∧
    (setGoB ⟨some (.fin 0), some (.fin 0), none, none, none, none⟩ 4 5).maxTokens =
      some (.fin 4) ∧
    (setGoB ⟨some (.fin 0), some (.fin 0), none, none, none, none⟩ 4 5).interval =
      some (.fin 5) ∧
    (setGoB ⟨some (.fin 0), some (.fin 0), none, none, none, none⟩ 4 5).expiry =
      some (.fin weekSeconds) ∧
    (∀ st now : ℚ, ∀ dm di : LuaNum,
      (⟨some (.fin 0), some (.fin 0), none, none, none, none⟩ : Bucket).start =
        some (.fin st) → 0 < ((5 : ℕ) : ℚ) →
      (takeScript (setGoB ⟨some (.fin 0), some (.fin 0), none, none, none, none⟩ 4 5)
          (.fin now) dm di).2.next =
        .fin (st + (((max 0 ⌊(now - st) / ((5 : ℕ) : ℚ)⌋ : ℤ) : ℚ) + 1) * (5 : ℕ))) :=
  set_preserves_grid ⟨some (.fin 0), some (.fin 0), none, none, none, none⟩ 4 5
